import Mathlib

/-!
# Verification of the state-diff aggregator core (src/index.ts)

Shallow embedding of the pure core of `src/index.ts`:

* the merge algorithm `computeNetStateDiff` (lines 89-136),
* the block-number ordering validation loop in `main` (lines 156-163),
* the input-list line handling in `main` (lines 142-153).

Addresses and slots are `0x`-prefixed hexadecimal strings in the source
(types `Address` and `Slot`); they are modelled as opaque `String`s with
decidable equality.  The JavaScript accumulator object
`Record<Address, Record<Slot, StorageValues>>` iterates its keys in
insertion order (the keys are `0x...` strings, never array-index strings,
so JavaScript's `Object.entries` enumeration order is exactly insertion
order); it is therefore modelled as an insertion-ordered association list.
-/

set_option autoImplicit false

namespace StateDiffAggregator

/-- `Raw` from src/index.ts lines 45-50: one raw storage-slot diff. -/
structure Raw where
  address : String
  key : String
  original : String
  dirty : String
deriving DecidableEq

/-- `StateDiff` from src/index.ts lines 35-43: one change entry of a
transaction diff.  The three trailing fields are the decoding fields that
are always `null` in the data (modelled as `Option`s that are `none`). -/
structure StateDiff where
  address : String
  raw : List Raw
  soltype : Option String
  original : Option String
  dirty : Option String
deriving DecidableEq

/-- `StorageValues` from src/index.ts lines 53-56. -/
structure StorageValues where
  original : String
  dirty : String
deriving DecidableEq

/-- `TxData` from src/index.ts lines 58-61: the decoded result of resolving
one input line. -/
structure TxData where
  stateDiff : List StateDiff
  blockNumber : Int
deriving DecidableEq

/-- The accumulator type of `computeNetStateDiff` (src/index.ts line 91):
`Record<Address, Record<Slot, StorageValues>>`, as an insertion-ordered
association list of association lists. -/
abbrev NetMap := List (String × List (String × StorageValues))

/-- The inner update of the merge loop (src/index.ts lines 104-109) on one
address's key map: if `raw.key` is unseen, initialize it with
`{original, dirty}`; in all cases overwrite `dirty` with `raw.dirty`. -/
def updateKey : List (String × StorageValues) → Raw → List (String × StorageValues)
  | [], r => [(r.key, ⟨r.original, r.dirty⟩)]
  | (k, v) :: rest, r =>
    if k = r.key then (k, ⟨v.original, r.dirty⟩) :: rest
    else (k, v) :: updateKey rest r

/-- The outer update of the merge loop (src/index.ts lines 98-110): if
`raw.address` is unseen, initialize it to an empty key map, then apply the
key update under that address. -/
def updateAddr : NetMap → Raw → NetMap
  | [], r => [(r.address, updateKey [] r)]
  | (a, ks) :: rest, r =>
    if a = r.address then (a, updateKey ks r) :: rest
    else (a, ks) :: updateAddr rest r

/-- The accumulation phase of `computeNetStateDiff` (src/index.ts lines
93-111): walk the entries in order, aborting with the fatal error when an
entry's raw-diff count is not exactly 1, and otherwise folding every raw
diff of the entry into the accumulator. -/
def accumulate : NetMap → List StateDiff → Except String NetMap
  | acc, [] => Except.ok acc
  | acc, d :: rest =>
    if d.raw.length ≠ 1 then
      Except.error ("Unexpected number of raw state diffs")
    else accumulate (d.raw.foldl updateAddr acc) rest

/-- The output-conversion phase of `computeNetStateDiff` (src/index.ts
lines 114-133): one output record per accumulator entry, in iteration
order, each holding a single-element raw list and `null` decoding fields. -/
def toStateDiffs (acc : NetMap) : List StateDiff :=
  acc.flatMap fun p =>
    p.2.map fun q =>
      { address := p.1
        raw := [{ address := p.1, key := q.1, original := q.2.original, dirty := q.2.dirty }]
        soltype := none
        original := none
        dirty := none }

/-- `computeNetStateDiff` from src/index.ts lines 89-136. -/
def computeNetStateDiff (stateDiffs : List StateDiff) : Except String (List StateDiff) :=
  (accumulate [] stateDiffs).map toStateDiffs

/-- The block-number ordering assertion of `main` (src/index.ts lines
156-163): for `i = 1, 2, ...`, throw when
`txData[i].blockNumber < txData[i-1].blockNumber`. -/
def validateOrdering : List TxData → Except String Unit
  | t1 :: t2 :: rest =>
    if t2.blockNumber < t1.blockNumber then
      Except.error ("State diffs are not ordered by block number")
    else validateOrdering (t2 :: rest)
  | _ => Except.ok ()

/-- The pure tail of `main` after all input lines have been resolved
(src/index.ts lines 155-167): validate the ordering, then flatten the
per-transaction diff lists in order and merge them. -/
def processTxData (txData : List TxData) : Except String (List StateDiff) :=
  match validateOrdering txData with
  | Except.error e => Except.error e
  | Except.ok _ => computeNetStateDiff (txData.flatMap (·.stateDiff))

/-! ## Observation helpers used to state the claims -/

/-- All raw diffs of an input sequence, flattened in input order
(src/index.ts line 166 together with the inner loop at line 98). -/
def rawEntries (diffs : List StateDiff) : List Raw :=
  diffs.flatMap (·.raw)

/-- The subsequence of raw diffs that touch the pair `(a, k)`. -/
def pairFilter (a k : String) (rs : List Raw) : List Raw :=
  rs.filter fun r => decide (r.address = a ∧ r.key = k)

/-- The `(address, key)` pairs of an output, one per raw element, in
output order. -/
def outPairs (out : List StateDiff) : List (String × String) :=
  out.flatMap fun d => d.raw.map fun r => (r.address, r.key)

/-- Look up the merged values that an output reports for the pair
`(a, k)`: the first raw element of any record that touches the pair. -/
def outLookup (out : List StateDiff) (a k : String) : Option StorageValues :=
  ((out.flatMap (·.raw)).find? fun r => decide (r.address = a ∧ r.key = k)).map
    fun r => ⟨r.original, r.dirty⟩

/-- Association-list lookup of one address's key map in the accumulator. -/
def lookupKs : List (String × StorageValues) → String → Option StorageValues
  | [], _ => none
  | (k, v) :: rest, key => if k = key then some v else lookupKs rest key

/-- Association-list lookup of a pair in the accumulator. -/
def lookupAcc : NetMap → String → String → Option StorageValues
  | [], _, _ => none
  | (a, ks) :: rest, addr, key =>
    if a = addr then lookupKs ks key else lookupAcc rest addr key

/-- The key list recorded under an address in the accumulator. -/
def addrKeys : NetMap → String → List String
  | [], _ => []
  | (a, ks) :: rest, addr => if a = addr then ks.map (·.1) else addrKeys rest addr

/-- One merge step on an optional stored value: first-seen `original` is
kept, `dirty` is overwritten. -/
def stepValue (v : Option StorageValues) (r : Raw) : StorageValues :=
  ⟨((v.map (·.original)).getD r.original), r.dirty⟩

/-- Folding merge steps over a raw-diff subsequence from a starting value. -/
def netStep (v : Option StorageValues) (rs : List Raw) : Option StorageValues :=
  rs.foldl (fun v r => some (stepValue v r)) v

/-- The net value of a raw-diff subsequence: `none` when the subsequence is
empty, otherwise first `original` paired with last `dirty`. -/
def netValue (rs : List Raw) : Option StorageValues :=
  netStep none rs

/-- Append an element to an accumulated first-seen list unless present. -/
def seenInsert (seen : List String) (x : String) : List String :=
  if x ∈ seen then seen else seen ++ [x]

/-- Keep the first occurrence of every element, in first-seen order. -/
def firstDedup (xs : List String) : List String :=
  xs.foldl seenInsert []

/-- The output order the spec promises: address groups in first-seen
address order, keys within a group in first-seen order for that address. -/
def specOrder (rs : List Raw) : List (String × String) :=
  (firstDedup (rs.map (·.address))).flatMap fun a =>
    (firstDedup ((rs.filter fun r => decide (r.address = a)).map (·.key))).map
      fun k => (a, k)

/-- The `dirty` of the last diff in a subsequence, with a fallback. -/
def lastDirtyD (d : String) : List Raw → String
  | [] => d
  | r :: rest => lastDirtyD r.dirty rest

/-- The raw entries that `toStateDiffs` emits for an accumulator, in
output order. -/
def accRaws (acc : NetMap) : List Raw :=
  acc.flatMap fun p => p.2.map fun q => Raw.mk p.1 q.1 q.2.original q.2.dirty

/-- Well-formedness of reachable accumulators: addresses are distinct, and
every address holds a nonempty key map with distinct keys. -/
def AccWf (acc : NetMap) : Prop :=
  (acc.map (·.1)).Nodup ∧ ∀ p ∈ acc, (p.2.map (·.1)).Nodup ∧ p.2 ≠ []

/-- The spec's example scenario (§8): T1 writes `addr1.key1: 0→1` and
`addr1.key2: 2→3`, then T2 writes `addr1.key1: 1→6`. -/
def exDiffs : List StateDiff :=
  [ StateDiff.mk "0xa1" [Raw.mk "0xa1" "0xk1" "0x0" "0x1"] none none none,
    StateDiff.mk "0xa1" [Raw.mk "0xa1" "0xk2" "0x2" "0x3"] none none none,
    StateDiff.mk "0xa1" [Raw.mk "0xa1" "0xk1" "0x1" "0x6"] none none none ]

/-- The net diff of the example scenario: `addr1.key1: 0→6`,
`addr1.key2: 2→3`, in that order. -/
def exOut : List StateDiff :=
  [ StateDiff.mk "0xa1" [Raw.mk "0xa1" "0xk1" "0x0" "0x6"] none none none,
    StateDiff.mk "0xa1" [Raw.mk "0xa1" "0xk2" "0x2" "0x3"] none none none ]

/-- A round-trip input: one slot written `A→B` and then `B→A`. -/
def exRoundTrip : List StateDiff :=
  [ StateDiff.mk "0xa1" [Raw.mk "0xa1" "0xk1" "0xA" "0xB"] none none none,
    StateDiff.mk "0xa1" [Raw.mk "0xa1" "0xk1" "0xB" "0xA"] none none none ]

/-- The net diff of the round-trip input: the touched slot reported as
`(A, A)`, not elided. -/
def exRoundTripOut : List StateDiff :=
  [ StateDiff.mk "0xa1" [Raw.mk "0xa1" "0xk1" "0xA" "0xA"] none none none ]

/-- JavaScript `String.prototype.split` with a single-character separator,
on strings modelled as character lists (src/index.ts lines 143 and 150):
the separator is consumed and never grouped, and splitting the empty
string yields one empty chunk. -/
def splitOnChar (sep : Char) : List Char → List (List Char)
  | [] => [[]]
  | c :: rest =>
    match splitOnChar sep rest with
    | [] => [[]]
    | t :: ts => if c = sep then [] :: t :: ts else (c :: t) :: ts

/-- The input-list line handling of `main` (src/index.ts lines 142-153):
split the file content on newlines, drop empty lines (`filter(Boolean)`),
skip comment lines starting with `#` or `//`, and resolve only the first
chunk of `line.split(" ")` of each remaining line. -/
def parseLines (content : List Char) : List (List Char) :=
  ((splitOnChar '\n' content).filter fun l => decide (l ≠ [])).filterMap
    fun l =>
      if ['#'].isPrefixOf l || ['/', '/'].isPrefixOf l then none
      else some ((splitOnChar ' ' l).headD [])

/-- The claim's reading of the token rule (same line handling, but the
resolved token is everything before the first whitespace character). -/
def claimParse (content : List Char) : List (List Char) :=
  ((splitOnChar '\n' content).filter fun l => decide (l ≠ [])).filterMap
    fun l =>
      if ['#'].isPrefixOf l || ['/', '/'].isPrefixOf l then none
      else some (l.takeWhile fun c => !c.isWhitespace)

/-- The amended reading: the resolved token is everything before the first
space character U+0020; other whitespace does not delimit. -/
def spaceTokenParse (content : List Char) : List (List Char) :=
  ((splitOnChar '\n' content).filter fun l => decide (l ≠ [])).filterMap
    fun l =>
      if ['#'].isPrefixOf l || ['/', '/'].isPrefixOf l then none
      else some (l.takeWhile fun c => decide (c ≠ ' '))

/-! ## The accumulation phase: success and failure -/

theorem accumulate_ok (acc : NetMap) (diffs : List StateDiff)
    (h : ∀ d ∈ diffs, d.raw.length = 1) :
    accumulate acc diffs = Except.ok ((diffs.flatMap (·.raw)).foldl updateAddr acc) := by
  induction diffs generalizing acc with
  | nil => simp [accumulate]
  | cons d rest ih =>
    have hd : d.raw.length = 1 := h d (by simp)
    simp [accumulate, hd, List.foldl_append, ih _ fun x hx => h x (by simp [hx])]

theorem accumulate_error_iff (acc : NetMap) (diffs : List StateDiff) :
    (∃ e, accumulate acc diffs = Except.error e) ↔ ∃ d ∈ diffs, d.raw.length ≠ 1 := by
  induction diffs generalizing acc with
  | nil => simp [accumulate]
  | cons d rest ih =>
    by_cases hd : d.raw.length = 1
    · simp [accumulate, hd, ih]
    · simp [accumulate, hd]

theorem computeNet_error_iff (diffs : List StateDiff) :
    (∃ e, computeNetStateDiff diffs = Except.error e) ↔ ∃ d ∈ diffs, d.raw.length ≠ 1 := by
  rw [← accumulate_error_iff [] diffs]
  unfold computeNetStateDiff
  cases hacc : accumulate [] diffs with
  | error e => simp [hacc, Except.map]
  | ok acc => simp [hacc, Except.map]

theorem computeNet_ok (diffs : List StateDiff) (h : ∀ d ∈ diffs, d.raw.length = 1) :
    computeNetStateDiff diffs =
      Except.ok (toStateDiffs ((rawEntries diffs).foldl updateAddr [])) := by
  simp [computeNetStateDiff, accumulate_ok [] diffs h, rawEntries, Except.map]

/-! ## The ordering validation: success and failure -/

theorem validateOrdering_error_iff (ts : List TxData) :
    (∃ e, validateOrdering ts = Except.error e) ↔
      ∃ p ∈ ts.zip ts.tail, p.2.blockNumber < p.1.blockNumber := by
  match ts with
  | [] => simp [validateOrdering]
  | [t] => simp [validateOrdering]
  | t1 :: t2 :: rest =>
    by_cases hlt : t2.blockNumber < t1.blockNumber
    · simp [validateOrdering, hlt]
    · rw [show (t1 :: t2 :: rest).zip (t1 :: t2 :: rest).tail
          = (t1, t2) :: (t2 :: rest).zip (t2 :: rest).tail from rfl]
      simp only [validateOrdering, if_neg hlt, List.mem_cons]
      rw [validateOrdering_error_iff (t2 :: rest)]
      constructor
      · rintro ⟨p, hp, hlt2⟩
        exact ⟨p, Or.inr hp, hlt2⟩
      · rintro ⟨p, hp | hp, hlt2⟩
        · subst hp; exact absurd hlt2 hlt
        · exact ⟨p, hp, hlt2⟩

/-- C4: `computeNetStateDiff` fails if and only if some entry's raw-diff
count differs from 1; failure is a thrown error, so no output list is
produced on that path. -/
theorem computeNet_throws_iff_bad_raw_count (diffs : List StateDiff) :
    (∃ e, computeNetStateDiff diffs = Except.error e) ↔
      ∃ d ∈ diffs, d.raw.length ≠ 1 :=
  computeNet_error_iff diffs

/-- C10: when every entry's raw list has length exactly 1, the merge never
throws and returns an output list, with the empty input giving the empty
output. -/
theorem computeNet_total_of_unit_raw (diffs : List StateDiff)
    (h : ∀ d ∈ diffs, d.raw.length = 1) :
    ∃ out, computeNetStateDiff diffs = Except.ok out ∧ (diffs = [] → out = []) := by
  refine ⟨toStateDiffs ((rawEntries diffs).foldl updateAddr []), computeNet_ok diffs h, ?_⟩
  rintro rfl
  rfl

/-- Witness for C10 at a concrete one-entry input. -/
theorem computeNet_total_of_unit_raw_witness :
    (∀ d ∈ [StateDiff.mk "0xe" [Raw.mk "0xa" "0xk" "0x0" "0x1"] none none none],
        d.raw.length = 1) ∧
      ∃ out,
        computeNetStateDiff
            [StateDiff.mk "0xe" [Raw.mk "0xa" "0xk" "0x0" "0x1"] none none none] =
          Except.ok out ∧
        ([StateDiff.mk "0xe" [Raw.mk "0xa" "0xk" "0x0" "0x1"] none none none] =
            ([] : List StateDiff) → out = []) :=
  ⟨by decide, computeNet_total_of_unit_raw _ (by decide)⟩

/-- C5: the ordering validation fails if and only if some adjacent pair of
transaction results has a strictly decreasing block number; equal block
numbers never trigger a failure. -/
theorem validateOrdering_fails_iff_decrease (ts : List TxData) :
    (∃ e, validateOrdering ts = Except.error e) ↔
      ∃ p ∈ ts.zip ts.tail, p.2.blockNumber < p.1.blockNumber :=
  validateOrdering_error_iff ts

/-- C6: when some adjacent pair of block numbers strictly decreases, the
whole run fails with the validation error: the pipeline's result is the
ordering error itself, so the merge contributes nothing to the outcome. -/
theorem process_fails_before_merge (ts : List TxData)
    (h : ∃ p ∈ ts.zip ts.tail, p.2.blockNumber < p.1.blockNumber) :
    ∃ e, validateOrdering ts = Except.error e ∧ processTxData ts = Except.error e := by
  obtain ⟨e, he⟩ := (validateOrdering_error_iff ts).mpr h
  exact ⟨e, he, by simp [processTxData, he]⟩

/-- Witness for C6 at the spec's block-number sequence `[5, 7, 6]`. -/
theorem process_fails_before_merge_witness :
    (∃ p ∈ ([TxData.mk [] 5, TxData.mk [] 7, TxData.mk [] 6].zip
          [TxData.mk [] 5, TxData.mk [] 7, TxData.mk [] 6].tail),
        p.2.blockNumber < p.1.blockNumber) ∧
      ∃ e, validateOrdering [TxData.mk [] 5, TxData.mk [] 7, TxData.mk [] 6] =
          Except.error e ∧
        processTxData [TxData.mk [] 5, TxData.mk [] 7, TxData.mk [] 6] =
          Except.error e :=
  ⟨by decide, process_fails_before_merge _ (by decide)⟩

/-! ## The accumulator tracks first `original` and last `dirty` per pair -/

theorem lookupKs_updateKey (ks : List (String × StorageValues)) (r : Raw) (k : String) :
    lookupKs (updateKey ks r) k =
      if r.key = k then
        some ⟨((lookupKs ks k).map (·.original)).getD r.original, r.dirty⟩
      else lookupKs ks k := by
  induction ks with
  | nil =>
    by_cases hk : r.key = k <;> simp [updateKey, lookupKs, hk]
  | cons p rest ih =>
    obtain ⟨k1, v⟩ := p
    by_cases hk1 : k1 = r.key
    · by_cases hk : r.key = k <;> simp [updateKey, lookupKs, hk1, hk]
    · by_cases hk : k1 = k
      · have hrk : ¬r.key = k := fun h => hk1 (hk.trans h.symm)
        have hkr : ¬k = r.key := hk ▸ hk1
        simp [updateKey, lookupKs, hk1, hk, hrk, hkr]
      · simp [updateKey, lookupKs, hk1, hk, ih]

theorem lookupAcc_updateAddr (acc : NetMap) (r : Raw) (a k : String) :
    lookupAcc (updateAddr acc r) a k =
      if r.address = a ∧ r.key = k then
        some ⟨((lookupAcc acc a k).map (·.original)).getD r.original, r.dirty⟩
      else lookupAcc acc a k := by
  induction acc with
  | nil =>
    by_cases ha : r.address = a
    · subst ha
      by_cases hk : r.key = k <;>
        simp [updateAddr, lookupAcc, lookupKs_updateKey, lookupKs, hk]
    · simp [updateAddr, lookupAcc, ha]
  | cons p rest ih =>
    obtain ⟨a1, ks⟩ := p
    by_cases ha1 : a1 = r.address
    · by_cases ha : r.address = a
      · simp [updateAddr, lookupAcc, ha1, ha, lookupKs_updateKey]
      · simp [updateAddr, lookupAcc, ha1, ha]
    · by_cases ha : a1 = a
      · have hra : ¬r.address = a := fun h => ha1 (ha.trans h.symm)
        have har : ¬a = r.address := ha ▸ ha1
        simp [updateAddr, lookupAcc, ha1, ha, hra, har]
      · simp [updateAddr, lookupAcc, ha1, ha, ih]

theorem lookupAcc_foldl (rs : List Raw) (acc : NetMap) (a k : String) :
    lookupAcc (rs.foldl updateAddr acc) a k =
      netStep (lookupAcc acc a k) (pairFilter a k rs) := by
  induction rs generalizing acc with
  | nil => simp [pairFilter, netStep]
  | cons r rest ih =>
    by_cases hp : r.address = a ∧ r.key = k
    · simp only [List.foldl_cons, ih (updateAddr acc r), lookupAcc_updateAddr, if_pos hp,
        pairFilter, List.filter_cons, decide_eq_true_eq, hp, if_pos, netStep, stepValue]
      simp [netStep, stepValue, pairFilter]
    · simp only [List.foldl_cons, ih (updateAddr acc r), lookupAcc_updateAddr, if_neg hp,
        pairFilter, List.filter_cons]
      simp [hp, pairFilter]

theorem lastDirtyD_getD (d : String) (rs : List Raw) :
    lastDirtyD d rs = ((rs.getLast?).map (·.dirty)).getD d := by
  induction rs generalizing d with
  | nil => rfl
  | cons r rest ih =>
    cases rest with
    | nil => simp [lastDirtyD]
    | cons r2 t =>
      show lastDirtyD r.dirty (r2 :: t) = _
      rw [ih, List.getLast?_cons_cons]
      cases hx : (r2 :: t).getLast? with
      | none => exact absurd (List.getLast?_eq_none_iff.mp hx) (by simp)
      | some x => simp

theorem netStep_some (rs : List Raw) (v : StorageValues) :
    netStep (some v) rs = some ⟨v.original, lastDirtyD v.dirty rs⟩ := by
  induction rs generalizing v with
  | nil => simp [netStep, lastDirtyD]
  | cons r rest ih =>
    have h1 : netStep (some v) (r :: rest) = netStep (some ⟨v.original, r.dirty⟩) rest := by
      simp [netStep, stepValue]
    rw [h1, ih]
    rfl

theorem netValue_cons (r : Raw) (rs : List Raw) :
    netValue (r :: rs) = some ⟨r.original, lastDirtyD r.dirty rs⟩ := by
  have h1 : netValue (r :: rs) = netStep (some ⟨r.original, r.dirty⟩) rs := by
    simp [netValue, netStep, stepValue]
  rw [h1, netStep_some]

/-! ## Key and address iteration order of the accumulator -/

theorem updateKey_keys (ks : List (String × StorageValues)) (r : Raw) :
    (updateKey ks r).map (·.1) = seenInsert (ks.map (·.1)) r.key := by
  induction ks with
  | nil => simp [updateKey, seenInsert]
  | cons p rest ih =>
    obtain ⟨k1, v⟩ := p
    by_cases hk1 : k1 = r.key
    · simp [updateKey, seenInsert, hk1]
    · have hne : ¬r.key = k1 := fun h => hk1 h.symm
      by_cases hm : r.key ∈ rest.map (·.1) <;>
        simp [updateKey, seenInsert, hk1, hne, hm, ih]

theorem updateAddr_addrs (acc : NetMap) (r : Raw) :
    (updateAddr acc r).map (·.1) = seenInsert (acc.map (·.1)) r.address := by
  induction acc with
  | nil => simp [updateAddr, seenInsert]
  | cons p rest ih =>
    obtain ⟨a1, ks⟩ := p
    by_cases ha1 : a1 = r.address
    · simp [updateAddr, seenInsert, ha1]
    · have hne : ¬r.address = a1 := fun h => ha1 h.symm
      by_cases hm : r.address ∈ rest.map (·.1) <;>
        simp [updateAddr, seenInsert, ha1, hne, hm, ih]

theorem addrKeys_updateAddr (acc : NetMap) (r : Raw) (b : String) :
    addrKeys (updateAddr acc r) b =
      if r.address = b then seenInsert (addrKeys acc b) r.key else addrKeys acc b := by
  induction acc with
  | nil =>
    by_cases hb : r.address = b <;>
      simp [updateAddr, addrKeys, updateKey_keys, hb]
  | cons p rest ih =>
    obtain ⟨a1, ks⟩ := p
    by_cases ha1 : a1 = r.address
    · by_cases hb : r.address = b
      · simp [updateAddr, addrKeys, ha1, hb, updateKey_keys]
      · simp [updateAddr, addrKeys, ha1, hb]
    · by_cases hb : a1 = b
      · have hrb : ¬r.address = b := fun h => ha1 (hb.trans h.symm)
        have hbr : ¬b = r.address := hb ▸ ha1
        simp [updateAddr, addrKeys, ha1, hb, hrb, hbr]
      · simp [updateAddr, addrKeys, ha1, hb, ih]

theorem foldl_addrs (rs : List Raw) (acc : NetMap) :
    (rs.foldl updateAddr acc).map (·.1) =
      (rs.map (·.address)).foldl seenInsert (acc.map (·.1)) := by
  induction rs generalizing acc with
  | nil => rfl
  | cons r rest ih => simp [ih, updateAddr_addrs]

theorem foldl_addrKeys (rs : List Raw) (acc : NetMap) (b : String) :
    addrKeys (rs.foldl updateAddr acc) b =
      ((rs.filter fun r => decide (r.address = b)).map (·.key)).foldl seenInsert
        (addrKeys acc b) := by
  induction rs generalizing acc with
  | nil => rfl
  | cons r rest ih =>
    by_cases hb : r.address = b <;>
      simp [List.filter_cons, hb, ih, addrKeys_updateAddr]

theorem mem_foldl_seenInsert (xs : List String) (seen : List String) (y : String) :
    y ∈ xs.foldl seenInsert seen ↔ y ∈ seen ∨ y ∈ xs := by
  induction xs generalizing seen with
  | nil => simp
  | cons x rest ih =>
    have hstep : y ∈ seenInsert seen x ↔ y ∈ seen ∨ y = x := by
      by_cases hx : x ∈ seen
      · simp only [seenInsert, if_pos hx]
        exact ⟨Or.inl, fun h => h.elim id fun h => h ▸ hx⟩
      · simp [seenInsert, hx]
    simp only [List.foldl_cons, ih, hstep, List.mem_cons]
    tauto

theorem nodup_foldl_seenInsert (xs : List String) (seen : List String)
    (h : seen.Nodup) : (xs.foldl seenInsert seen).Nodup := by
  induction xs generalizing seen with
  | nil => exact h
  | cons x rest ih =>
    refine ih _ ?_
    by_cases hx : x ∈ seen
    · simpa [seenInsert, hx] using h
    · simp [seenInsert, hx, List.nodup_append, h]

theorem firstDedup_nodup (xs : List String) : (firstDedup xs).Nodup :=
  nodup_foldl_seenInsert xs [] List.nodup_nil

theorem mem_firstDedup (xs : List String) (y : String) :
    y ∈ firstDedup xs ↔ y ∈ xs := by
  simp [firstDedup, mem_foldl_seenInsert]

/-! ## Relating the emitted records back to the accumulator -/

theorem flatMap_single {α β : Type} (l : List α) (f : α → β) :
    (l.flatMap fun x => [f x]) = l.map f := by
  induction l with
  | nil => rfl
  | cons x rest ih => simp [ih]

theorem toStateDiffs_raws (acc : NetMap) :
    (toStateDiffs acc).flatMap (·.raw) = accRaws acc := by
  induction acc with
  | nil => rfl
  | cons p rest ih =>
    simp only [toStateDiffs, accRaws, List.flatMap_cons, List.flatMap_append] at *
    simp [List.flatMap_map, ih, Function.comp, flatMap_single]

theorem accRaws_address_mem (acc : NetMap) (r : Raw) (h : r ∈ accRaws acc) :
    r.address ∈ acc.map (·.1) := by
  simp only [accRaws, List.mem_flatMap, List.mem_map] at h
  obtain ⟨p, hp, q, _, rfl⟩ := h
  exact List.mem_map.mpr ⟨p, hp, rfl⟩

theorem find?_mkRaw (a k a1 : String) (ks : List (String × StorageValues)) :
    ((ks.map fun q => Raw.mk a1 q.1 q.2.original q.2.dirty).find?
        fun r => decide (r.address = a ∧ r.key = k)) =
      (if a1 = a then (lookupKs ks k).map fun v => Raw.mk a1 k v.original v.dirty
       else none) := by
  induction ks with
  | nil => simp [lookupKs]
  | cons q rest ih =>
    obtain ⟨k1, v⟩ := q
    rw [List.map_cons]
    by_cases hpa : a1 = a ∧ k1 = k
    · rw [List.find?_cons_of_pos _ (by simp [hpa.1, hpa.2])]
      simp [lookupKs, hpa.1, hpa.2]
    · rw [List.find?_cons_of_neg _ (by simpa using hpa), ih]
      by_cases ha : a1 = a
      · have hk : ¬k1 = k := fun h => hpa ⟨ha, h⟩
        simp [lookupKs, ha, hk]
      · simp [ha]

theorem find?_accRaws_none (a k : String) (acc : NetMap)
    (h : a ∉ acc.map (·.1)) :
    (accRaws acc).find? (fun r => decide (r.address = a ∧ r.key = k)) = none := by
  rw [List.find?_eq_none]
  intro r hr hp
  rw [decide_eq_true_eq] at hp
  exact h (hp.1 ▸ accRaws_address_mem acc r hr)

theorem outLookup_toStateDiffs (acc : NetMap) (a k : String)
    (hnd : (acc.map (·.1)).Nodup) :
    outLookup (toStateDiffs acc) a k = lookupAcc acc a k := by
  unfold outLookup
  rw [toStateDiffs_raws]
  induction acc with
  | nil => rfl
  | cons p rest ih =>
    obtain ⟨a1, ks⟩ := p
    have hnd1 : a1 ∉ rest.map (·.1) := (List.nodup_cons.mp hnd).1
    have hndr : (rest.map (·.1)).Nodup := (List.nodup_cons.mp hnd).2
    rw [show accRaws ((a1, ks) :: rest)
        = (ks.map fun q => Raw.mk a1 q.1 q.2.original q.2.dirty) ++ accRaws rest from by
      simp [accRaws]]
    rw [List.find?_append, find?_mkRaw]
    by_cases ha : a1 = a
    · cases hv : lookupKs ks k with
      | none =>
        have hnone : (accRaws rest).find?
            (fun r => decide (r.address = a ∧ r.key = k)) = none :=
          find?_accRaws_none a k rest (ha ▸ hnd1)
        rw [if_pos ha, Option.map_none', Option.none_or, hnone]
        simp [lookupAcc, ha, hv]
      | some v =>
        obtain ⟨vo, vd⟩ := v
        rw [if_pos ha]
        simp [lookupAcc, ha, hv]
    · rw [if_neg ha, Option.none_or]
      rw [show lookupAcc ((a1, ks) :: rest) a k = lookupAcc rest a k from by
        simp [lookupAcc, ha]]
      exact ih hndr

/-! ## The merged value of every pair, from input to output -/

theorem computeNet_ok_inv (diffs out : List StateDiff)
    (hok : computeNetStateDiff diffs = Except.ok out) :
    ∀ d ∈ diffs, d.raw.length = 1 := by
  by_contra hbad
  push_neg at hbad
  obtain ⟨d, hd, hlen⟩ := hbad
  obtain ⟨e, he⟩ := (computeNet_error_iff diffs).mpr ⟨d, hd, hlen⟩
  rw [hok] at he
  exact Except.noConfusion he

theorem computeNet_ok_eq (diffs out : List StateDiff)
    (hok : computeNetStateDiff diffs = Except.ok out) :
    out = toStateDiffs ((rawEntries diffs).foldl updateAddr []) := by
  have h1 := computeNet_ok diffs (computeNet_ok_inv diffs out hok)
  rw [hok] at h1
  exact Except.ok.inj h1

theorem foldl_addrs_nodup (rs : List Raw) :
    ((rs.foldl updateAddr []).map (·.1)).Nodup := by
  rw [foldl_addrs rs []]
  exact nodup_foldl_seenInsert _ _ List.nodup_nil

theorem computeNet_outLookup (diffs out : List StateDiff)
    (hok : computeNetStateDiff diffs = Except.ok out) (a k : String) :
    outLookup out a k = netValue (pairFilter a k (rawEntries diffs)) := by
  rw [computeNet_ok_eq diffs out hok,
    outLookup_toStateDiffs _ a k (foldl_addrs_nodup (rawEntries diffs)),
    lookupAcc_foldl]
  rfl

theorem getLast?_cons_dirty (r : Raw) (t : List Raw) :
    ((r :: t).getLast?).map (·.dirty) = some (lastDirtyD r.dirty t) := by
  rw [lastDirtyD_getD]
  cases t with
  | nil => simp
  | cons r2 t2 =>
    rw [List.getLast?_cons_cons]
    cases hx : (r2 :: t2).getLast? with
    | none => exact absurd (List.getLast?_eq_none_iff.mp hx) (by simp)
    | some x => simp

/-- C1: for every pair `(a, k)` touched by the input, the output record for
that pair carries the `original` of the first raw diff on the pair and the
`dirty` of the last raw diff on the pair, in input order. -/
theorem computeNet_first_original_last_dirty (diffs out : List StateDiff)
    (hok : computeNetStateDiff diffs = Except.ok out) (a k : String)
    (hocc : pairFilter a k (rawEntries diffs) ≠ []) :
    ∃ v : StorageValues, outLookup out a k = some v ∧
      ((pairFilter a k (rawEntries diffs)).head?).map (·.original) = some v.original ∧
      ((pairFilter a k (rawEntries diffs)).getLast?).map (·.dirty) = some v.dirty := by
  rw [computeNet_outLookup diffs out hok a k]
  cases hrs : pairFilter a k (rawEntries diffs) with
  | nil => exact absurd hrs hocc
  | cons r t =>
    refine ⟨⟨r.original, lastDirtyD r.dirty t⟩, ?_, ?_, ?_⟩
    · rw [netValue_cons]
    · simp
    · simpa using getLast?_cons_dirty r t

/-- Witness for C1 on the spec's example scenario, pair `addr1.key1`. -/
theorem computeNet_first_original_last_dirty_witness :
    computeNetStateDiff exDiffs = Except.ok exOut ∧
    pairFilter "0xa1" "0xk1" (rawEntries exDiffs) ≠ [] ∧
    ∃ v : StorageValues, outLookup exOut "0xa1" "0xk1" = some v ∧
      ((pairFilter "0xa1" "0xk1" (rawEntries exDiffs)).head?).map (·.original) =
        some v.original ∧
      ((pairFilter "0xa1" "0xk1" (rawEntries exDiffs)).getLast?).map (·.dirty) =
        some v.dirty :=
  ⟨by rfl, by decide,
    computeNet_first_original_last_dirty exDiffs exOut (by rfl) "0xa1" "0xk1"
      (by decide)⟩

/-! ## Output order: first-seen addresses, first-seen keys per address -/

theorem flatMap_congr {α β : Type} {l : List α} {f g : α → List β}
    (h : ∀ x ∈ l, f x = g x) : l.flatMap f = l.flatMap g := by
  induction l with
  | nil => rfl
  | cons x rest ih =>
    simp only [List.flatMap_cons, h x (by simp), ih fun y hy => h y (by simp [hy])]

theorem outPairs_eq_raws_map (out : List StateDiff) :
    outPairs out = (out.flatMap (·.raw)).map fun r => (r.address, r.key) := by
  simp [outPairs, List.map_flatMap]

theorem outPairs_toStateDiffs (acc : NetMap) :
    outPairs (toStateDiffs acc) = acc.flatMap fun p => p.2.map fun q => (p.1, q.1) := by
  rw [outPairs_eq_raws_map, toStateDiffs_raws]
  simp only [accRaws, List.map_flatMap, List.map_map]
  rfl

theorem acc_pairs_group (acc : NetMap) (hnd : (acc.map (·.1)).Nodup) :
    (acc.flatMap fun p => p.2.map fun q => (p.1, q.1)) =
      (acc.map (·.1)).flatMap fun a => (addrKeys acc a).map fun k => (a, k) := by
  induction acc with
  | nil => rfl
  | cons p rest ih =>
    obtain ⟨a1, ks⟩ := p
    obtain ⟨h1, h2⟩ := List.nodup_cons.mp hnd
    simp only [List.map_cons, List.flatMap_cons]
    congr 1
    · rw [show addrKeys ((a1, ks) :: rest) a1 = ks.map (·.1) from by simp [addrKeys]]
      simp [List.map_map, Function.comp]
    · rw [ih h2]
      refine flatMap_congr fun a ha => ?_
      have hne : ¬a1 = a := fun h => h1 (h ▸ ha)
      rw [show addrKeys ((a1, ks) :: rest) a = addrKeys rest a from by
        simp [addrKeys, hne]]

theorem computeNet_outPairs (diffs out : List StateDiff)
    (hok : computeNetStateDiff diffs = Except.ok out) :
    outPairs out = specOrder (rawEntries diffs) := by
  rw [computeNet_ok_eq diffs out hok]
  rw [outPairs_toStateDiffs, acc_pairs_group _ (foldl_addrs_nodup (rawEntries diffs))]
  rw [foldl_addrs]
  refine flatMap_congr fun a _ => ?_
  rw [foldl_addrKeys]
  rfl

theorem nodup_group_pairs (as : List String) (keys : String → List String)
    (hnd : as.Nodup) (hk : ∀ a ∈ as, (keys a).Nodup) :
    (as.flatMap fun a => (keys a).map fun k => (a, k)).Nodup := by
  induction as with
  | nil => exact List.nodup_nil
  | cons a rest ih =>
    obtain ⟨h1, h2⟩ := List.nodup_cons.mp hnd
    rw [List.flatMap_cons, List.nodup_append]
    refine ⟨?_, ih h2 fun b hb => hk b (by simp [hb]), ?_⟩
    · exact ((hk a (by simp)).map fun k1 k2 h => (Prod.mk.injEq a k1 a k2 ▸ h).2)
    · intro x hx hx2
      simp only [List.mem_map] at hx
      obtain ⟨k, _, rfl⟩ := hx
      simp only [List.mem_flatMap, List.mem_map] at hx2
      obtain ⟨b, hb, k2, _, hbk⟩ := hx2
      exact h1 ((Prod.mk.injEq b k2 a k ▸ hbk).1 ▸ hb)

theorem specOrder_nodup (rs : List Raw) : (specOrder rs).Nodup :=
  nodup_group_pairs _ _ (firstDedup_nodup _) fun _ _ => firstDedup_nodup _

theorem mem_specOrder (rs : List Raw) (a k : String) :
    (a, k) ∈ specOrder rs ↔ ∃ r ∈ rs, r.address = a ∧ r.key = k := by
  constructor
  · intro h
    simp only [specOrder, List.mem_flatMap, List.mem_map] at h
    obtain ⟨a1, _, k1, hk1, hpair⟩ := h
    obtain ⟨ha, hk⟩ := Prod.mk.injEq a1 k1 a k ▸ hpair
    rw [mem_firstDedup] at hk1
    simp only [List.mem_map, List.mem_filter, decide_eq_true_eq] at hk1
    obtain ⟨r, ⟨hr, hra⟩, hrk⟩ := hk1
    exact ⟨r, hr, ha ▸ hra, hk ▸ hrk⟩
  · rintro ⟨r, hr, rfl, rfl⟩
    simp only [specOrder, List.mem_flatMap, List.mem_map]
    refine ⟨r.address, ?_, r.key, ?_, rfl⟩
    · rw [mem_firstDedup]
      exact List.mem_map.mpr ⟨r, hr, rfl⟩
    · rw [mem_firstDedup]
      exact List.mem_map.mpr ⟨r, List.mem_filter.mpr ⟨hr, by simp⟩, rfl⟩

theorem pairFilter_ne_nil (rs : List Raw) (a k : String) :
    pairFilter a k rs ≠ [] ↔ ∃ r ∈ rs, r.address = a ∧ r.key = k := by
  rw [pairFilter, Ne, List.filter_eq_nil_iff]
  push_neg
  simp

/-- C2: the output records appear grouped by address in first-seen address
order, and within each address in first-seen key order; the order is a
function of the input alone, so identical input yields identical order. -/
theorem computeNet_output_order (diffs out : List StateDiff)
    (hok : computeNetStateDiff diffs = Except.ok out) :
    outPairs out = specOrder (rawEntries diffs) ∧
      ∀ diffs2, diffs2 = diffs → computeNetStateDiff diffs2 = Except.ok out := by
  exact ⟨computeNet_outPairs diffs out hok, fun diffs2 h => h ▸ hok⟩

/-- Witness for C2 on the spec's example scenario. -/
theorem computeNet_output_order_witness :
    computeNetStateDiff exDiffs = Except.ok exOut ∧
    (outPairs exOut = specOrder (rawEntries exDiffs) ∧
      ∀ diffs2, diffs2 = exDiffs → computeNetStateDiff diffs2 = Except.ok exOut) :=
  ⟨by rfl, computeNet_output_order exDiffs exOut (by rfl)⟩

/-- C3: exactly one output record per distinct touched pair (the pair list
is duplicate-free and a pair is listed iff the input touches it, even when
the net change is a no-op round trip), and the values reported for a pair
are a function of that pair's own subsequence of raw diffs alone. -/
theorem computeNet_one_record_per_pair (diffs out : List StateDiff)
    (hok : computeNetStateDiff diffs = Except.ok out) :
    (outPairs out).Nodup ∧
      (∀ a k, (a, k) ∈ outPairs out ↔ pairFilter a k (rawEntries diffs) ≠ []) ∧
      ∀ a k, outLookup out a k = netValue (pairFilter a k (rawEntries diffs)) := by
  refine ⟨?_, ?_, fun a k => computeNet_outLookup diffs out hok a k⟩
  · rw [computeNet_outPairs diffs out hok]
    exact specOrder_nodup _
  · intro a k
    rw [computeNet_outPairs diffs out hok, mem_specOrder, pairFilter_ne_nil]

/-- Witness for C3 on the round-trip input `A→B` then `B→A`: the touched
slot is still reported, as `(A, A)`. -/
theorem computeNet_one_record_per_pair_witness :
    computeNetStateDiff exRoundTrip = Except.ok exRoundTripOut ∧
    ((outPairs exRoundTripOut).Nodup ∧
      (∀ a k, (a, k) ∈ outPairs exRoundTripOut ↔
        pairFilter a k (rawEntries exRoundTrip) ≠ []) ∧
      ∀ a k, outLookup exRoundTripOut a k =
        netValue (pairFilter a k (rawEntries exRoundTrip))) :=
  ⟨by rfl, computeNet_one_record_per_pair exRoundTrip exRoundTripOut (by rfl)⟩

/-! ## Shape of the output records -/

theorem toStateDiffs_shape (acc : NetMap) :
    ∀ d ∈ toStateDiffs acc, ∃ r : Raw, d.raw = [r] ∧ r.address = d.address ∧
      d.soltype = none ∧ d.original = none ∧ d.dirty = none := by
  intro d hd
  simp only [toStateDiffs, List.mem_flatMap, List.mem_map] at hd
  obtain ⟨p, hp, q, hq, rfl⟩ := hd
  exact ⟨Raw.mk p.1 q.1 q.2.original q.2.dirty, rfl, rfl, rfl, rfl, rfl⟩

/-- C8: every output record has the input shape: a single-element raw list
whose element carries the record's own address, and the three decoding
fields set to null. -/
theorem computeNet_output_shape (diffs out : List StateDiff)
    (hok : computeNetStateDiff diffs = Except.ok out) :
    ∀ d ∈ out, ∃ r : Raw, d.raw = [r] ∧ r.address = d.address ∧
      d.soltype = none ∧ d.original = none ∧ d.dirty = none := by
  rw [computeNet_ok_eq diffs out hok]
  exact toStateDiffs_shape _

/-- Witness for C8 on the spec's example scenario. -/
theorem computeNet_output_shape_witness :
    computeNetStateDiff exDiffs = Except.ok exOut ∧
    ∀ d ∈ exOut, ∃ r : Raw, d.raw = [r] ∧ r.address = d.address ∧
      d.soltype = none ∧ d.original = none ∧ d.dirty = none :=
  ⟨by rfl, computeNet_output_shape exDiffs exOut (by rfl)⟩

/-! ## Idempotence: merging an already-merged output is the identity -/

theorem seenInsert_nodup (xs : List String) (x : String) (h : xs.Nodup) :
    (seenInsert xs x).Nodup := by
  by_cases hm : x ∈ xs
  · simpa [seenInsert, hm] using h
  · simp [seenInsert, hm, List.nodup_append, h]

theorem updateKey_ne_nil (ks : List (String × StorageValues)) (r : Raw) :
    updateKey ks r ≠ [] := by
  cases ks with
  | nil => simp [updateKey]
  | cons q rest =>
    obtain ⟨k1, v⟩ := q
    by_cases hk : k1 = r.key <;> simp [updateKey, hk]

theorem mem_updateAddr (acc : NetMap) (r : Raw) (p : String × List (String × StorageValues))
    (hp : p ∈ updateAddr acc r) :
    p ∈ acc ∨ ∃ ks, p = (r.address, updateKey ks r) ∧
      (ks = [] ∨ (r.address, ks) ∈ acc) := by
  induction acc with
  | nil =>
    simp only [updateAddr, List.mem_singleton] at hp
    exact Or.inr ⟨[], hp, Or.inl rfl⟩
  | cons q rest ih =>
    obtain ⟨a1, ks1⟩ := q
    by_cases ha : a1 = r.address
    · simp only [updateAddr, if_pos ha] at hp
      rcases List.mem_cons.mp hp with h | h
      · exact Or.inr ⟨ks1, by rw [h, ha], Or.inr (by rw [← ha]; simp)⟩
      · exact Or.inl (by simp [h])
    · simp only [updateAddr, if_neg ha] at hp
      rcases List.mem_cons.mp hp with h | h
      · exact Or.inl (by simp [h])
      · rcases ih h with h2 | ⟨ks, hks, hor⟩
        · exact Or.inl (by simp [h2])
        · exact Or.inr ⟨ks, hks, hor.imp id fun hm => by simp [hm]⟩

theorem accWf_nil : AccWf [] :=
  ⟨List.nodup_nil, by simp⟩

theorem accWf_updateAddr (acc : NetMap) (r : Raw) (h : AccWf acc) :
    AccWf (updateAddr acc r) := by
  obtain ⟨hnd, hks⟩ := h
  constructor
  · rw [updateAddr_addrs]
    exact seenInsert_nodup _ _ hnd
  · intro p hp
    rcases mem_updateAddr acc r p hp with hmem | ⟨ks, rfl, hor⟩
    · exact hks p hmem
    · refine ⟨?_, updateKey_ne_nil ks r⟩
      rw [updateKey_keys]
      apply seenInsert_nodup
      rcases hor with rfl | hm
      · simp
      · exact (hks _ hm).1

theorem accWf_foldl (rs : List Raw) (acc : NetMap) (h : AccWf acc) :
    AccWf (rs.foldl updateAddr acc) := by
  induction rs generalizing acc with
  | nil => exact h
  | cons r rest ih => exact ih _ (accWf_updateAddr acc r h)

theorem foldl_updateAddr_pass (rs : List Raw) (a : String)
    (ks : List (String × StorageValues)) (B : NetMap)
    (h : ∀ r ∈ rs, r.address ≠ a) :
    rs.foldl updateAddr ((a, ks) :: B) = (a, ks) :: rs.foldl updateAddr B := by
  induction rs generalizing B with
  | nil => rfl
  | cons r rest ih =>
    have hne : ¬a = r.address := fun hh => (h r (by simp)) hh.symm
    simp only [List.foldl_cons]
    rw [show updateAddr ((a, ks) :: B) r = (a, ks) :: updateAddr B r from by
      simp [updateAddr, hne]]
    exact ih _ fun r2 h2 => h r2 (by simp [h2])

theorem updateKey_fresh (ks : List (String × StorageValues)) (r : Raw)
    (h : r.key ∉ ks.map (·.1)) :
    updateKey ks r = ks ++ [(r.key, ⟨r.original, r.dirty⟩)] := by
  induction ks with
  | nil => rfl
  | cons q rest ih =>
    obtain ⟨k1, v⟩ := q
    have h1 : ¬k1 = r.key := fun hh => h (by simp [hh])
    simp only [updateKey, if_neg h1, List.cons_append]
    exact congrArg _ (ih fun hm => h (by simp [hm]))

theorem foldl_group (a : String) (todo done : List (String × StorageValues))
    (hdisj : ∀ k ∈ todo.map (·.1), k ∉ done.map (·.1))
    (hnd : (todo.map (·.1)).Nodup) :
    (todo.map fun q => Raw.mk a q.1 q.2.original q.2.dirty).foldl updateAddr
        [(a, done)] = [(a, done ++ todo)] := by
  induction todo generalizing done with
  | nil => simp
  | cons q rest ih =>
    obtain ⟨k1, v1⟩ := q
    obtain ⟨vo, vd⟩ := v1
    simp only [List.map_cons, List.foldl_cons]
    rw [show updateAddr [(a, done)] (Raw.mk a k1 vo vd)
        = [(a, updateKey done (Raw.mk a k1 vo vd))] from by simp [updateAddr]]
    rw [updateKey_fresh done _ (hdisj k1 (by simp))]
    have hnd2 : k1 ∉ rest.map (·.1) ∧ (rest.map (·.1)).Nodup := by
      rw [List.map_cons] at hnd
      exact List.nodup_cons.mp hnd
    have hd2 : ∀ k ∈ rest.map (·.1),
        k ∉ (done ++ [(k1, StorageValues.mk vo vd)]).map (·.1) := by
      intro k hk hmem
      simp only [List.map_append, List.mem_append] at hmem
      rcases hmem with hmem | hmem
      · exact hdisj k (by simp [hk]) hmem
      · simp only [List.map_cons, List.map_nil, List.mem_singleton] at hmem
        exact hnd2.1 (hmem ▸ hk)
    rw [ih (done ++ [(k1, StorageValues.mk vo vd)]) hd2 hnd2.2]
    simp

theorem accRaws_rebuild (acc : NetMap) (h : AccWf acc) :
    (accRaws acc).foldl updateAddr [] = acc := by
  induction acc with
  | nil => rfl
  | cons p rest ih =>
    obtain ⟨a1, ks⟩ := p
    obtain ⟨hnd, hprop⟩ := h
    have hkne : ks ≠ [] := (hprop (a1, ks) (by simp)).2
    have hknd : (ks.map (·.1)).Nodup := (hprop (a1, ks) (by simp)).1
    have hwfrest : AccWf rest :=
      ⟨(List.nodup_cons.mp hnd).2, fun q hq => hprop q (by simp [hq])⟩
    have ha1 : a1 ∉ rest.map (·.1) := (List.nodup_cons.mp hnd).1
    rw [show accRaws ((a1, ks) :: rest)
        = (ks.map fun q => Raw.mk a1 q.1 q.2.original q.2.dirty) ++ accRaws rest from by
      simp [accRaws]]
    rw [List.foldl_append]
    have hgroup : (ks.map fun q => Raw.mk a1 q.1 q.2.original q.2.dirty).foldl
        updateAddr [] = [(a1, ks)] := by
      cases ks with
      | nil => exact absurd rfl hkne
      | cons q kt =>
        obtain ⟨k1, v1⟩ := q
        obtain ⟨vo, vd⟩ := v1
        simp only [List.map_cons, List.foldl_cons]
        rw [show updateAddr [] (Raw.mk a1 k1 vo vd)
            = [(a1, [(k1, StorageValues.mk vo vd)])] from by
          simp [updateAddr, updateKey]]
        have hknd2 : k1 ∉ kt.map (·.1) ∧ (kt.map (·.1)).Nodup := by
          rw [List.map_cons] at hknd
          exact List.nodup_cons.mp hknd
        have hd1 : ∀ k ∈ kt.map (·.1),
            k ∉ ([(k1, StorageValues.mk vo vd)].map (·.1)) := by
          intro k hk hmem
          simp only [List.map_cons, List.map_nil, List.mem_singleton] at hmem
          exact hknd2.1 (hmem ▸ hk)
        rw [foldl_group a1 kt [(k1, StorageValues.mk vo vd)] hd1 hknd2.2]
        simp
    rw [hgroup]
    rw [foldl_updateAddr_pass _ a1 ks [] fun r hr =>
      fun hra => ha1 (hra ▸ accRaws_address_mem rest r hr)]
    rw [ih hwfrest]

/-- C7: the merge is idempotent: applying `computeNetStateDiff` to its own
successful output returns exactly that output. -/
theorem computeNet_idempotent (diffs out : List StateDiff)
    (hok : computeNetStateDiff diffs = Except.ok out) :
    computeNetStateDiff out = Except.ok out := by
  have heq := computeNet_ok_eq diffs out hok
  have hwf : AccWf ((rawEntries diffs).foldl updateAddr []) :=
    accWf_foldl _ [] accWf_nil
  have hlen : ∀ d ∈ out, d.raw.length = 1 := by
    intro d hd
    obtain ⟨r, hr, -⟩ := computeNet_output_shape diffs out hok d hd
    simp [hr]
  rw [computeNet_ok out hlen]
  rw [show rawEntries out = accRaws ((rawEntries diffs).foldl updateAddr []) from by
    rw [rawEntries, heq, toStateDiffs_raws]]
  rw [accRaws_rebuild _ hwf, ← heq]

/-- Witness for C7 on the spec's example scenario. -/
theorem computeNet_idempotent_witness :
    computeNetStateDiff exDiffs = Except.ok exOut ∧
    computeNetStateDiff exOut = Except.ok exOut :=
  ⟨by rfl, computeNet_idempotent exDiffs exOut (by rfl)⟩

/-! ## Line handling of the input list file -/

theorem splitOnChar_ne_nil (sep : Char) (l : List Char) : splitOnChar sep l ≠ [] := by
  cases l with
  | nil => simp [splitOnChar]
  | cons c rest =>
    simp only [splitOnChar]
    cases splitOnChar sep rest with
    | nil => simp
    | cons t ts => by_cases hc : c = sep <;> simp [hc]

theorem splitOnChar_head (sep : Char) (l : List Char) :
    (splitOnChar sep l).headD [] = l.takeWhile fun c => decide (c ≠ sep) := by
  induction l with
  | nil => rfl
  | cons c rest ih =>
    cases hs : splitOnChar sep rest with
    | nil => exact absurd hs (splitOnChar_ne_nil sep rest)
    | cons t ts =>
      rw [hs] at ih
      by_cases hc : c = sep
      · simp only [splitOnChar, hs, if_pos hc, List.takeWhile_cons]
        simp [hc]
      · simp only [splitOnChar, hs, if_neg hc, List.takeWhile_cons]
        simp only [List.headD_cons] at ih ⊢
        simp [hc, ih]

theorem filterMap_congr {α β : Type} {l : List α} {f g : α → Option β}
    (h : ∀ x ∈ l, f x = g x) : l.filterMap f = l.filterMap g := by
  induction l with
  | nil => rfl
  | cons x rest ih =>
    rw [List.filterMap_cons, List.filterMap_cons, h x (by simp),
      ih fun y hy => h y (by simp [hy])]

/-- C9 counterexample: on the line `0xa<TAB>b` the code resolves the whole
line (it splits on the space character only), while the claim's
first-whitespace-token reading resolves `0xa`. -/
theorem parseLines_tab_counterexample :
    parseLines ['0', 'x', 'a', '\t', 'b'] ≠ claimParse ['0', 'x', 'a', '\t', 'b'] := by
  decide

/-- C9 as amended: blank lines are dropped, `#` and `//` lines are
skipped, and each remaining line resolves to everything before its first
space character U+0020 (other whitespace does not delimit). -/
theorem parseLines_space_token (content : List Char) :
    parseLines content = spaceTokenParse content := by
  unfold parseLines spaceTokenParse
  refine filterMap_congr fun l _ => ?_
  by_cases hc : (['#'].isPrefixOf l || ['/', '/'].isPrefixOf l) = true
  · simp [hc]
  · rw [if_neg hc, if_neg hc, splitOnChar_head]

end StateDiffAggregator
